import Mathlib

/-!
Verification of the pattern-mining and relevance-search engines of the
dotfiles-coach repository.

The definitions below are a shallow embedding of the TypeScript sources
`src/analyzers/frequency.ts` and `src/search/scorer.ts`.  JavaScript
`Date` values are modelled as epoch milliseconds (`Nat`; every parser in
the repository builds timestamps from digit-only regexes, so they are
non-negative).  JavaScript `Map` objects are modelled as association
lists in insertion order, `Array.prototype.sort` (stable, consistent
comparator) as `List.mergeSort`, and floating-point arithmetic as real
arithmetic.
-/

namespace DotfilesCoach

/-- One parsed history line (`HistoryEntry` in `src/types`): a command
string, an optional timestamp (epoch milliseconds) and a 1-based line
number. -/
structure HistoryEntry where
  command : String
  timestamp : Option Nat
  lineNumber : Nat
deriving DecidableEq

/-- Fuel-indexed Levenshtein distance on character lists.  The fuel makes
the recursion structural so that the kernel can evaluate it; with fuel at
least the sum of the lengths the fuel never runs out. -/
def levFuel : Nat → List Char → List Char → Nat
  | _, [], ys => ys.length
  | _, x :: xs, [] => (x :: xs).length
  | 0, _, _ => 0
  | fuel + 1, x :: xs, y :: ys =>
    if x = y then levFuel fuel xs ys
    else 1 + min (levFuel fuel xs ys)
      (min (levFuel fuel (x :: xs) ys) (levFuel fuel xs (y :: ys)))

/-- Levenshtein edit distance between two character lists, the metric
computed by the `fast-levenshtein` package used by both engines. -/
def levenshtein (xs ys : List Char) : Nat :=
  levFuel (xs.length + ys.length) xs ys

/-- Edit distance between two strings (`levenshtein.get` in the source). -/
def levenshteinGet (a b : String) : Nat :=
  levenshtein a.toList b.toList

/-- Per-key counting record of the frequency analyzer
(`interface CountInfo`, `src/analyzers/frequency.ts` lines 94-97). -/
structure CountInfo where
  count : Nat
  lastUsed : Option Nat
deriving DecidableEq

/-- Update an optional most-recent timestamp with an incoming optional
timestamp.  Mirrors the repeated idiom
`if (ts && (!last || ts > last)) last = ts` of the source. -/
def laterTime (current incoming : Option Nat) : Option Nat :=
  match incoming, current with
  | some t, some c => if t > c then some t else some c
  | some t, none => some t
  | none, c => c

/-- Insert-or-update on an insertion-ordered association list, the model
of `map.get`/`map.set` on a JavaScript `Map`: an existing key is updated
in place, a new key is appended at the end. -/
def setOrUpdate {α : Type} (m : List (String × α)) (k : String) (f : α → α) (init : α) :
    List (String × α) :=
  match m with
  | [] => [(k, init)]
  | (k', v) :: rest =>
    if k' = k then (k', f v) :: rest else (k', v) :: setOrUpdate rest k f init

/-- Count exact command occurrences and track the most recent usage
(`countExactCommands`, `src/analyzers/frequency.ts` lines 102-121). -/
def countExactCommands (entries : List HistoryEntry) : List (String × CountInfo) :=
  entries.foldl
    (fun m e =>
      setOrUpdate m e.command
        (fun info => { count := info.count + 1, lastUsed := laterTime info.lastUsed e.timestamp })
        { count := 1, lastUsed := e.timestamp })
    []

/-- All contiguous windows of size `w` of a list, in order; empty when
the list is shorter than `w` (the `continue` of the source loop). -/
def windowsOfSize (entries : List HistoryEntry) (w : Nat) : List (List HistoryEntry) :=
  (List.range (entries.length + 1 - w)).map (fun i => (entries.drop i).take w)

/-- Detect repeated command sequences with sliding windows of size
`minLen` to `maxLen` (`detectSequences`, `src/analyzers/frequency.ts`
lines 129-160).  Each window is keyed by its commands joined with
`" && "`; count and last-entry timestamp accumulate per key. -/
def detectSequences (entries : List HistoryEntry) (minLen maxLen : Nat) :
    List (String × CountInfo) :=
  (List.range' minLen (maxLen + 1 - minLen)).foldl
    (fun m w =>
      (windowsOfSize entries w).foldl
        (fun m' win =>
          let seq := String.intercalate " && " (win.map (·.command))
          let ts := win.getLast?.bind (·.timestamp)
          setOrUpdate m' seq
            (fun info => { count := info.count + 1, lastUsed := laterTime info.lastUsed ts })
            { count := 1, lastUsed := ts })
        m)
    []

/-- Merge sequence counts into the exact-count map, keeping only keys not
already present (step 3 of `analyzeFrequency`, `src/analyzers/frequency.ts`
lines 66-71). -/
def mergeSequenceCounts (exactCounts seqCounts : List (String × CountInfo)) :
    List (String × CountInfo) :=
  seqCounts.foldl
    (fun m kv => if (m.find? (fun kv' => kv'.1 = kv.1)).isSome then m else m ++ [kv])
    exactCounts

/-- A mined automation candidate (`CommandPattern` in `src/types`). -/
structure CommandPattern where
  pattern : String
  frequency : Nat
  lastUsed : Option Nat
  variations : List String
deriving DecidableEq

/-- State of the inner scan of `groupSimilarCommands`
(`src/analyzers/frequency.ts` lines 183-207). -/
structure InnerState where
  used : List String
  variations : List String
  totalCount : Nat
  latestUsed : Option Nat
deriving DecidableEq

/-- One step of the inner scan of `groupSimilarCommands`: skip the
representative itself and consumed keys, pre-filter by length difference,
then merge when the edit distance is within the threshold. -/
def innerStep (threshold : Nat) (cmd : String) (s : InnerState) (kv : String × CountInfo) :
    InnerState :=
  if kv.1 = cmd ∨ kv.1 ∈ s.used then s
  else if Nat.dist cmd.length kv.1.length > threshold then s
  else if levenshteinGet cmd kv.1 ≤ threshold then
    { used := kv.1 :: s.used
      variations := s.variations ++ [kv.1]
      totalCount := s.totalCount + kv.2.count
      latestUsed := laterTime s.latestUsed kv.2.lastUsed }
  else s

/-- State of the outer walk of `groupSimilarCommands`. -/
structure OuterState where
  used : List String
  patterns : List CommandPattern

/-- One step of the outer walk of `groupSimilarCommands`
(`src/analyzers/frequency.ts` lines 179-215): an unconsumed key becomes a
representative, is marked used, and absorbs every still-unconsumed
similar key found by the inner scan of the whole sorted list. -/
def outerStep (threshold : Nat) (sorted : List (String × CountInfo)) (s : OuterState)
    (kv : String × CountInfo) : OuterState :=
  if kv.1 ∈ s.used then s
  else
    let inner := sorted.foldl (innerStep threshold kv.1)
      { used := kv.1 :: s.used
        variations := []
        totalCount := kv.2.count
        latestUsed := kv.2.lastUsed }
    { used := inner.used
      patterns := s.patterns ++
        [{ pattern := kv.1
           frequency := inner.totalCount
           lastUsed := inner.latestUsed
           variations := inner.variations }] }

/-- Comparator of the count-descending sort opening `groupSimilarCommands`
(`src/analyzers/frequency.ts` lines 172-174). -/
def countDescLE (a b : String × CountInfo) : Bool :=
  b.2.count ≤ a.2.count

/-- Combined condition under which one inner-scan step merges a
candidate into the representative `cmd`: not the representative or an
already-consumed key, within the length pre-filter, and within the edit
distance threshold. -/
def mergeCond (t : ℕ) (cmd : String) (used : List String) (kv : String × CountInfo) : Bool :=
  !(decide (kv.1 = cmd ∨ kv.1 ∈ used)) &&
    (!(decide (Nat.dist cmd.length kv.1.length > t)) &&
      decide (levenshteinGet cmd kv.1 ≤ t))

/-- All keys claimed by a pattern list: each representative followed by
its variations. -/
def collectKeys (ps : List CommandPattern) : List String :=
  ps.flatMap (fun p => p.pattern :: p.variations)

/-- Group commands within `threshold` edit distance of each other
(`groupSimilarCommands`, `src/analyzers/frequency.ts` lines 167-218). -/
def groupSimilarCommands (counts : List (String × CountInfo)) (threshold : Nat) :
    List CommandPattern :=
  let sorted := counts.mergeSort countDescLE
  (sorted.foldl (outerStep threshold sorted) { used := [], patterns := [] }).patterns

/-- Options of the frequency analyzer (`FrequencyOptions`); a `none`
field means the caller omitted it and the default applies. -/
structure FrequencyOptions where
  minFrequency : Option Nat
  top : Option Nat
  similarityThreshold : Option Nat
  minSequenceLength : Option Nat
  maxSequenceLength : Option Nat
deriving DecidableEq

/-- Comparator of the final ranking sort (`src/analyzers/frequency.ts`
lines 80-86): frequency descending, ties by `lastUsed` descending with a
missing timestamp read as 0 (`?? 0`). -/
def rankLE (a b : CommandPattern) : Bool :=
  decide (b.frequency < a.frequency ∨
    (a.frequency = b.frequency ∧ b.lastUsed.getD 0 ≤ a.lastUsed.getD 0))

/-- The frequency analysis engine (`analyzeFrequency`,
`src/analyzers/frequency.ts` lines 48-90): exact counts, sequence
detection, merge, similarity grouping, `minFrequency` filter, ranking,
truncation to `top`. -/
def analyzeFrequency (entries : List HistoryEntry) (options : FrequencyOptions) :
    List CommandPattern :=
  let minFrequency := options.minFrequency.getD 5
  let top := options.top.getD 20
  let similarityThreshold := options.similarityThreshold.getD 3
  let minSeqLen := options.minSequenceLength.getD 2
  let maxSeqLen := options.maxSequenceLength.getD 5
  if entries.length = 0 then []
  else
    let exactCounts := countExactCommands entries
    let sequenceCounts := detectSequences entries minSeqLen maxSeqLen
    let merged := mergeSequenceCounts exactCounts sequenceCounts
    let grouped := groupSimilarCommands merged similarityThreshold
    let filtered := grouped.filter (fun p => minFrequency ≤ p.frequency)
    let ranked := filtered.mergeSort rankLE
    ranked.take top

/-- Maximum edit distance for a fuzzy token match (`FUZZY_THRESHOLD`,
`src/search/scorer.ts` line 20). -/
def FUZZY_THRESHOLD : Nat := 2

/-- Weight of the exact-overlap sub-score (`src/search/scorer.ts` line 23). -/
def WEIGHT_EXACT : ℝ := 0.50

/-- Weight of the fuzzy-overlap sub-score (line 25). -/
def WEIGHT_FUZZY : ℝ := 0.20

/-- Weight of the substring sub-score (line 27). -/
def WEIGHT_SUBSTRING : ℝ := 0.20

/-- Weight of the frequency sub-score (line 29). -/
def WEIGHT_FREQUENCY : ℝ := 0.05

/-- Weight of the recency sub-score (line 31). -/
def WEIGHT_RECENCY : ℝ := 0.05

/-- Minimum combined score below which a result is dropped (`MIN_SCORE`,
`src/search/scorer.ts` line 34). -/
def MIN_SCORE : ℝ := 0.05

/-- Separator characters of the tokenizer regex
`[\s/\-_.=|;:&"<>(){}[\]]` plus apostrophe and backquote
(`src/search/scorer.ts` line 48); quote-like and brace characters are
written by code point. -/
def isSepChar (c : Char) : Bool :=
  c = ' ' ∨ c = '\t' ∨ c = '\n' ∨ c = '\r' ∨ c = Char.ofNat 11 ∨ c = Char.ofNat 12 ∨
  c = '/' ∨ c = '-' ∨ c = '_' ∨ c = '.' ∨ c = '=' ∨ c = '|' ∨ c = ';' ∨ c = ':' ∨
  c = '&' ∨ c = Char.ofNat 34 ∨ c = Char.ofNat 39 ∨ c = Char.ofNat 96 ∨
  c = '<' ∨ c = '>' ∨ c = '(' ∨ c = ')' ∨
  c = Char.ofNat 123 ∨ c = Char.ofNat 125 ∨ c = '[' ∨ c = ']'

/-- Accumulator pass splitting a character list into maximal runs of
non-separator characters (the effect of splitting on the
one-or-more-separators regex and dropping empty fragments). -/
def tokenizeAux : List Char → List Char → List (List Char)
  | cur, [] => if cur.isEmpty then [] else [cur.reverse]
  | cur, c :: cs =>
    if isSepChar c then
      if cur.isEmpty then tokenizeAux [] cs else cur.reverse :: tokenizeAux [] cs
    else tokenizeAux (c :: cur) cs

/-- Tokenize a string into lowercase words (`tokenize`,
`src/search/scorer.ts` lines 45-50): lowercase, split on the separator
set, drop empty fragments. -/
def tokenize (input : String) : List String :=
  (tokenizeAux [] (input.toList.map Char.toLower)).map List.asString

/-- Exact token overlap (`exactOverlap`, `src/search/scorer.ts` lines
58-63): the fraction of query tokens appearing verbatim among the
command tokens; 0 for an empty query. -/
noncomputable def exactOverlap (queryTokens cmdTokens : List String) : ℝ :=
  if queryTokens.length = 0 then 0
  else ((queryTokens.filter (fun t => t ∈ cmdTokens)).length : ℝ) / queryTokens.length

/-- Fuzzy match test between two tokens, the body of the inner loop of
`fuzzyOverlap` (lines 80-85): skip when the lengths differ by more than
the threshold, otherwise compare the edit distance to the threshold. -/
def fuzzyTokenMatch (qt ct : String) : Bool :=
  if Nat.dist qt.length ct.length > FUZZY_THRESHOLD then false
  else levenshteinGet qt ct ≤ FUZZY_THRESHOLD

/-- Fuzzy token overlap (`fuzzyOverlap`, `src/search/scorer.ts` lines
70-89): among query tokens without an exact match, count those with some
command token within the fuzzy threshold, and divide by the total number
of query tokens; 1 when every query token matched exactly, 0 for an
empty query. -/
noncomputable def fuzzyOverlap (queryTokens cmdTokens : List String) : ℝ :=
  if queryTokens.length = 0 then 0
  else
    let unmatched := queryTokens.filter (fun t => ¬ t ∈ cmdTokens)
    if unmatched.length = 0 then 1
    else ((unmatched.filter (fun qt => cmdTokens.any (fun ct => fuzzyTokenMatch qt ct))).length : ℝ) /
      queryTokens.length

/-- Substring and token-prefix bonus (`substringScore`,
`src/search/scorer.ts` lines 96-114): 1 when the lowercased query is a
substring of the lowercased command, otherwise the fraction of query
tokens that are a prefix of some command token or vice versa. -/
noncomputable def substringScore (query command : String) (queryTokens cmdTokens : List String) :
    ℝ :=
  let q := (query.toList.map Char.toLower)
  let c := (command.toList.map Char.toLower)
  if q <:+: c then 1
  else
    let prefixHits :=
      (queryTokens.filter (fun qt =>
        cmdTokens.any (fun ct => qt.toList.isPrefixOf ct.toList ∨ ct.toList.isPrefixOf qt.toList))).length
    if 0 < queryTokens.length then (prefixHits : ℝ) / queryTokens.length else 0

/-- Frequency boost (`frequencyScore`, `src/search/scorer.ts` lines
120-123): a log-scale ratio, 0 when the dataset maximum is at most 1. -/
noncomputable def frequencyScore (frequency maxFrequency : Nat) : ℝ :=
  if maxFrequency ≤ 1 then 0
  else Real.log (1 + (frequency : ℝ)) / Real.log (1 + (maxFrequency : ℝ))

/-- Thirty days in milliseconds, the recency decay window
(`src/search/scorer.ts` line 134). -/
def thirtyDaysMs : Nat := 30 * 24 * 60 * 60 * 1000

/-- Recency boost (`recencyScore`, `src/search/scorer.ts` lines
129-136): 0 without a timestamp, 1 when the timestamp is at or after the
newest one, otherwise a linear decay over thirty days clamped at 0. -/
noncomputable def recencyScore (timestamp : Option Nat) (newestTimestamp : Nat) : ℝ :=
  match timestamp with
  | none => 0
  | some t =>
    if newestTimestamp ≤ t then 1
    else max 0 (1 - ((newestTimestamp - t : Nat) : ℝ) / (thirtyDaysMs : ℝ))

/-- Per-command aggregate of the search engine (the record values of
`commandMap`, `src/search/scorer.ts` lines 159-162). -/
structure CommandMeta where
  frequency : Nat
  lastUsed : Option Nat
  lineNumber : Nat
deriving DecidableEq

/-- One ranked search match (`SearchResult` in `src/types`). -/
structure SearchResult where
  command : String
  score : ℝ
  lastUsed : Option Nat
  frequency : Nat
  lineNumber : Nat

/-- Aggregate entries by exact command string (`src/search/scorer.ts`
lines 164-179): frequency incremented, `lastUsed` raised to the maximum
timestamp, `lineNumber` raised to the maximum line number. -/
def aggregateCommands (entries : List HistoryEntry) : List (String × CommandMeta) :=
  entries.foldl
    (fun m e =>
      setOrUpdate m e.command
        (fun meta =>
          { frequency := meta.frequency + 1
            lastUsed := laterTime meta.lastUsed e.timestamp
            lineNumber := max meta.lineNumber e.lineNumber })
        { frequency := 1, lastUsed := e.timestamp, lineNumber := e.lineNumber })
    []

/-- Dataset-wide maximum command frequency, starting from 1
(`src/search/scorer.ts` lines 182-185). -/
def maxFreqOf (m : List (String × CommandMeta)) : Nat :=
  m.foldl (fun acc kv => if acc < kv.2.frequency then kv.2.frequency else acc) 1

/-- Dataset-wide newest timestamp, starting from epoch 0
(`src/search/scorer.ts` lines 183-189). -/
def newestOf (m : List (String × CommandMeta)) : Nat :=
  m.foldl
    (fun acc kv => match kv.2.lastUsed with
      | some t => if acc < t then t else acc
      | none => acc)
    0

/-- Weighted combination of the five sub-scores for one command
(`src/search/scorer.ts` lines 195-208). -/
noncomputable def combinedScore (query : String) (queryTokens : List String) (command : String)
    (meta : CommandMeta) (maxFreq newest : Nat) : ℝ :=
  let cmdTokens := tokenize command
  WEIGHT_EXACT * exactOverlap queryTokens cmdTokens +
  WEIGHT_FUZZY * fuzzyOverlap queryTokens cmdTokens +
  WEIGHT_SUBSTRING * substringScore query command queryTokens cmdTokens +
  WEIGHT_FREQUENCY * frequencyScore meta.frequency maxFreq +
  WEIGHT_RECENCY * recencyScore meta.lastUsed newest

/-- Rounding to three decimal places, the JavaScript idiom
`Math.round(s * 1000) / 1000` (`src/search/scorer.ts` line 213);
`Math.round` on non-negative values is floor of the value plus one half,
which is the `round` function. -/
noncomputable def roundTo3 (s : ℝ) : ℝ :=
  ((round (s * 1000) : ℤ) : ℝ) / 1000

/-- The scored result list before sorting and truncation: one candidate
per aggregated command, kept when the raw combined score reaches
`MIN_SCORE`, with the stored score rounded to three decimals
(`src/search/scorer.ts` lines 192-219). -/
noncomputable def scoredResults (entries : List HistoryEntry) (query : String) :
    List SearchResult :=
  let queryTokens := tokenize query
  let m := aggregateCommands entries
  let maxFreq := maxFreqOf m
  let newest := newestOf m
  m.filterMap (fun kv =>
    let s := combinedScore query queryTokens kv.1 kv.2 maxFreq newest
    if MIN_SCORE ≤ s then
      some { command := kv.1
             score := roundTo3 s
             lastUsed := kv.2.lastUsed
             frequency := kv.2.frequency
             lineNumber := kv.2.lineNumber }
    else none)

open Classical in
/-- Comparator of the final ranking sort of the search engine
(`src/search/scorer.ts` line 222): score descending, ties by frequency
descending. -/
noncomputable def resultLE (a b : SearchResult) : Bool :=
  decide (b.score < a.score ∨ (a.score = b.score ∧ b.frequency ≤ a.frequency))

/-- The relevance search engine (`searchHistory`, `src/search/scorer.ts`
lines 148-225): empty output for empty entries or a blank or
punctuation-only query, otherwise the scored results sorted by the
ranking comparator and truncated to `maxResults`. -/
noncomputable def searchHistory (entries : List HistoryEntry) (query : String)
    (maxResults : Nat) : List SearchResult :=
  if entries.length = 0 ∨ query.trim = "" then []
  else if (tokenize query).length = 0 then []
  else ((scoredResults entries query).mergeSort resultLE).take maxResults

/-- Spec-side reading of the fuzzy-overlap sub-score, written from the
claim wording: the fraction is taken "among the query tokens that did
not match a command token exactly", so the denominator is the number of
unmatched query tokens.  Kept only for comparison with the source
definition `fuzzyOverlap`, whose denominator is the total number of
query tokens. -/
noncomputable def fuzzyOverlapClaim (queryTokens cmdTokens : List String) : ℝ :=
  let unmatched := queryTokens.filter (fun t => ¬ t ∈ cmdTokens)
  if unmatched.length = 0 then 1
  else ((unmatched.filter (fun qt => cmdTokens.any (fun ct => fuzzyTokenMatch qt ct))).length : ℝ) /
    unmatched.length

/-- Concrete two-entry history used to separate thresholding before
rounding from thresholding after rounding: the second command is 0.2
percent of the thirty-day window older than the first, giving it a raw
combined score of exactly 0.0499. -/
def thresholdEntries : List HistoryEntry :=
  [⟨"nnnn", some 2592000000, 1⟩, ⟨"oooo", some 2586816000, 2⟩]

/-! ## Helper lemmas -/


/-- The ranking comparator is transitive. -/
theorem rankLE_trans (a b c : CommandPattern) (hab : rankLE a b = true)
    (hbc : rankLE b c = true) : rankLE a c = true := by
  simp only [rankLE, decide_eq_true_eq] at *
  omega

/-- The ranking comparator is total. -/
theorem rankLE_total (a b : CommandPattern) : (rankLE a b || rankLE b a) = true := by
  simp only [rankLE, Bool.or_eq_true, decide_eq_true_eq]
  omega

/-! ## C7: recency sub-score values and monotonicity -/

/-- C7.  The recency sub-score of `searchHistory` is 0 for a command with
no timestamp, 1 for a timestamp at or after `newestTimestamp`, and
otherwise `max 0 (1 - age/30days)`; for a fixed `newestTimestamp` it is
monotone in the timestamp: a timestamp at or after another one scores at
least as much. -/
theorem recencyScore_spec (newest t1 t2 : ℕ) :
    recencyScore none newest = 0 ∧
    (newest ≤ t1 → recencyScore (some t1) newest = 1) ∧
    (t1 < newest → recencyScore (some t1) newest =
      max 0 (1 - ((newest - t1 : ℕ) : ℝ) / (thirtyDaysMs : ℝ))) ∧
    (t2 ≤ t1 → recencyScore (some t2) newest ≤ recencyScore (some t1) newest) := by
  refine ⟨rfl, ?_, ?_, ?_⟩
  · intro h
    simp [recencyScore, h]
  · intro h
    simp [recencyScore, not_le.mpr h, Nat.not_le_of_lt h]
  · intro h12
    by_cases h1 : newest ≤ t1
    · have : recencyScore (some t1) newest = 1 := by simp [recencyScore, h1]
      rw [this]
      by_cases h2 : newest ≤ t2
      · simp [recencyScore, h2]
      · simp only [recencyScore, if_neg h2]
        apply max_le
        · norm_num
        · have hd : 0 ≤ ((newest - t2 : ℕ) : ℝ) / (thirtyDaysMs : ℝ) := by
            apply div_nonneg (by positivity) (by norm_num [thirtyDaysMs])
          linarith
    · have h2 : ¬ newest ≤ t2 := fun h => h1 (h.trans h12)
      simp only [recencyScore, if_neg h1, if_neg h2]
      have hsub : (newest - t1 : ℕ) ≤ (newest - t2 : ℕ) := Nat.sub_le_sub_left h12 newest
      have hcast : ((newest - t1 : ℕ) : ℝ) ≤ ((newest - t2 : ℕ) : ℝ) := by exact_mod_cast hsub
      have hT : (0 : ℝ) < (thirtyDaysMs : ℝ) := by norm_num [thirtyDaysMs]
      have : ((newest - t1 : ℕ) : ℝ) / (thirtyDaysMs : ℝ) ≤
          ((newest - t2 : ℕ) : ℝ) / (thirtyDaysMs : ℝ) := by
        exact div_le_div_of_nonneg_right hcast hT.le
      exact max_le_max le_rfl (by linarith)

/-- Witness for C7 at concrete inputs. -/
theorem recencyScore_spec_witness :
    recencyScore none 100 = 0 ∧
    recencyScore (some 100) 100 = 1 ∧
    recencyScore (some 30) 100 ≤ recencyScore (some 50) 100 :=
  ⟨(recencyScore_spec 100 50 30).1,
   (recencyScore_spec 100 100 0).2.1 le_rfl,
   (recencyScore_spec 100 50 30).2.2.2 (by norm_num)⟩

/-! ## C3: analyzer output ranking order -/

/-- C3.  The pattern list returned by `analyzeFrequency` is sorted
non-increasing by frequency, and among equal frequencies non-increasing
by `lastUsed`, a missing timestamp being read as 0 — the oldest possible
value in the epoch-milliseconds timestamp model. -/
theorem analyzeFrequency_ranking (entries : List HistoryEntry) (options : FrequencyOptions) :
    (analyzeFrequency entries options).Pairwise
      (fun a b => b.frequency < a.frequency ∨
        (a.frequency = b.frequency ∧ b.lastUsed.getD 0 ≤ a.lastUsed.getD 0)) := by
  unfold analyzeFrequency
  by_cases h : entries.length = 0
  · simp [h]
  · simp only [if_neg h]
    refine List.Pairwise.sublist (List.take_sublist _ _) ?_
    refine (List.sorted_mergeSort rankLE_trans rankLE_total _).imp ?_
    intro a b hab
    exact of_decide_eq_true hab

/-! ## C6: frequency floor -/

/-- C6.  Every pattern returned by `analyzeFrequency` has frequency at
least `minFrequency` (default 5). -/
theorem analyzeFrequency_minFrequency (entries : List HistoryEntry)
    (options : FrequencyOptions) :
    (analyzeFrequency entries options).Forall
      (fun p => options.minFrequency.getD 5 ≤ p.frequency) := by
  rw [List.forall_iff_forall_mem]
  intro p hp
  unfold analyzeFrequency at hp
  by_cases h : entries.length = 0
  · simp [h] at hp
  · simp only [if_neg h] at hp
    have hp' := List.mem_of_mem_take hp
    have hp'' := (List.mergeSort_perm _ rankLE).mem_iff.mp hp'
    exact (of_decide_eq_true (List.mem_filter.mp hp'').2 : _ ≤ _)

/-! ## C9: sequence keys already present as raw commands are discarded -/

/-- Appending entries to an association list does not change a lookup
that already succeeds. -/
theorem find?_append_of_isSome {α : Type} (m extra : List (String × α)) (p : String × α → Bool)
    (h : (m.find? p).isSome) : (m ++ extra).find? p = m.find? p := by
  rw [List.find?_append]
  obtain ⟨v, hv⟩ := Option.isSome_iff_exists.mp h
  simp [hv]

/-- Merging sequence counts never changes the record of a key that the
exact-count map already holds. -/
theorem mergeSequenceCounts_find?_of_isSome (seqCounts : List (String × CountInfo))
    (m : List (String × CountInfo)) (k : String)
    (h : (m.find? (fun kv => kv.1 = k)).isSome) :
    (mergeSequenceCounts m seqCounts).find? (fun kv => kv.1 = k) =
      m.find? (fun kv => kv.1 = k) := by
  induction seqCounts generalizing m with
  | nil => rfl
  | cons kv rest ih =>
    show (mergeSequenceCounts (if ((m.find? (fun kv' => kv'.1 = kv.1)).isSome : Bool) = true
      then m else m ++ [kv]) rest).find? (fun kv => kv.1 = k) = _
    by_cases hmem : ((m.find? (fun kv' => kv'.1 = kv.1)).isSome : Bool) = true
    · rw [if_pos hmem]
      exact ih m h
    · rw [if_neg hmem]
      have hfind : ((m ++ [kv]).find? (fun kv' => kv'.1 = k)).isSome := by
        rw [find?_append_of_isSome m [kv] _ h]
        exact h
      rw [ih (m ++ [kv]) hfind, find?_append_of_isSome m [kv] _ h]

/-- C9.  In `analyzeFrequency`, a raw command string that textually
equals a synthetic sequence key keeps exactly its exact-match count and
`lastUsed`: the merge of step 3 discards the sequence record for every
key already present in the exact-count map. -/
theorem analyzeFrequency_merge_keeps_exact (entries : List HistoryEntry)
    (minLen maxLen : Nat) (k : String)
    (h : ((countExactCommands entries).find? (fun kv => kv.1 = k)).isSome) :
    (mergeSequenceCounts (countExactCommands entries)
        (detectSequences entries minLen maxLen)).find? (fun kv => kv.1 = k) =
      (countExactCommands entries).find? (fun kv => kv.1 = k) :=
  mergeSequenceCounts_find?_of_isSome _ _ _ h

/-- Witness for C9: the raw command `"a && b"` collides with the
two-window sequence key of the first two entries; after the merge its
record is still the exact-match one (count 1, timestamp 9), not the
sequence count. -/
theorem analyzeFrequency_merge_keeps_exact_witness :
    ((countExactCommands
        [⟨"a", none, 1⟩, ⟨"b", some 5, 2⟩, ⟨"a && b", some 9, 3⟩]).find?
        (fun kv => kv.1 = "a && b")).isSome ∧
    (mergeSequenceCounts
        (countExactCommands [⟨"a", none, 1⟩, ⟨"b", some 5, 2⟩, ⟨"a && b", some 9, 3⟩])
        (detectSequences [⟨"a", none, 1⟩, ⟨"b", some 5, 2⟩, ⟨"a && b", some 9, 3⟩] 2 5)).find?
        (fun kv => kv.1 = "a && b") =
      (countExactCommands
        [⟨"a", none, 1⟩, ⟨"b", some 5, 2⟩, ⟨"a && b", some 9, 3⟩]).find?
        (fun kv => kv.1 = "a && b") :=
  ⟨by decide,
   analyzeFrequency_merge_keeps_exact
     [⟨"a", none, 1⟩, ⟨"b", some 5, 2⟩, ⟨"a && b", some 9, 3⟩] 2 5 "a && b" (by decide)⟩

/-! ## C1: fuzzy-overlap denominator -/

/-- C1 counterexample.  For the query tokens `["aa", "bcdef"]` against
the command tokens `["aa", "bcdez"]`, the token `"aa"` matches exactly
and the single unmatched token `"bcdef"` fuzzy-matches `"bcdez"`; the
claimed fraction among unmatched tokens is 1, but the code divides by
the total number of query tokens and returns 1/2. -/
theorem fuzzyOverlap_denominator_counterexample :
    fuzzyOverlap ["aa", "bcdef"] ["aa", "bcdez"] = 1 / 2 ∧
    fuzzyOverlapClaim ["aa", "bcdef"] ["aa", "bcdez"] = 1 ∧
    fuzzyOverlap ["aa", "bcdef"] ["aa", "bcdez"] ≠
      fuzzyOverlapClaim ["aa", "bcdef"] ["aa", "bcdez"] := by
  have h1 : fuzzyOverlap ["aa", "bcdef"] ["aa", "bcdez"] = 1 / 2 := by
    simp only [fuzzyOverlap]
    simp +decide [List.filter_cons]
  have h2 : fuzzyOverlapClaim ["aa", "bcdef"] ["aa", "bcdez"] = 1 := by
    simp only [fuzzyOverlapClaim]
    simp +decide [List.filter_cons]
  refine ⟨h1, h2, ?_⟩
  rw [h1, h2]
  norm_num

/-- Characterization of the fuzzy-token test as a conjunction of the
length pre-filter and the edit-distance bound. -/
theorem fuzzyTokenMatch_iff (qt ct : String) :
    fuzzyTokenMatch qt ct = true ↔
      Nat.dist qt.length ct.length ≤ FUZZY_THRESHOLD ∧
        levenshteinGet qt ct ≤ FUZZY_THRESHOLD := by
  unfold fuzzyTokenMatch
  by_cases h : Nat.dist qt.length ct.length > FUZZY_THRESHOLD
  · rw [if_pos h]
    simp only [Bool.false_eq_true, false_iff]
    rintro ⟨h1, -⟩
    omega
  · rw [if_neg h, decide_eq_true_eq]
    exact ⟨fun h2 => ⟨by omega, h2⟩, fun h2 => h2.2⟩

/-- C1 amended.  The fuzzy-overlap sub-score equals the fraction, among
ALL query tokens, of those that did not match a command token exactly
but have some command token within Levenshtein distance 2 (token pairs
whose lengths differ by more than 2 being skipped); it is 1 when every
query token matched exactly and 0 for an empty query token list. -/
theorem fuzzyOverlap_eq_total_fraction (queryTokens cmdTokens : List String) :
    fuzzyOverlap queryTokens cmdTokens =
      if queryTokens.length = 0 then 0
      else if ∀ t ∈ queryTokens, t ∈ cmdTokens then 1
      else ((queryTokens.filter (fun t => ¬ t ∈ cmdTokens ∧
          ∃ ct ∈ cmdTokens, Nat.dist t.length ct.length ≤ FUZZY_THRESHOLD ∧
            levenshteinGet t ct ≤ FUZZY_THRESHOLD)).length : ℝ) / queryTokens.length := by
  unfold fuzzyOverlap
  by_cases h0 : queryTokens.length = 0
  · simp [h0]
  · simp only [if_neg h0]
    by_cases hall : ∀ t ∈ queryTokens, t ∈ cmdTokens
    · have hnil : queryTokens.filter (fun t => decide (¬ t ∈ cmdTokens)) = [] := by
        rw [List.filter_eq_nil_iff]
        intro a ha
        simpa using hall a ha
      rw [if_pos hall, hnil]
      simp
    · have hne : ¬ (queryTokens.filter (fun t => decide (¬ t ∈ cmdTokens))).length = 0 := by
        intro h
        apply hall
        intro t ht
        by_contra hc
        rw [List.length_eq_zero] at h
        have hmem : t ∈ queryTokens.filter (fun t => decide (¬ t ∈ cmdTokens)) :=
          List.mem_filter.mpr ⟨ht, by simpa using hc⟩
        rw [h] at hmem
        exact absurd hmem (List.not_mem_nil t)
      rw [if_neg hall, if_neg hne]
      congr 2
      rw [List.filter_filter]
      refine congrArg List.length (List.filter_congr ?_)
      intro x _
      rw [Bool.eq_iff_iff]
      simp only [Bool.and_eq_true, List.any_eq_true, decide_eq_true_eq, fuzzyTokenMatch_iff]
      tauto

/-! ## C8: search deduplication -/

/-- Keys after an insert-or-update are the old keys plus possibly the
new key. -/
theorem mem_keys_setOrUpdate {α : Type} (m : List (String × α)) (k : String) (f : α → α)
    (init : α) (x : String) :
    x ∈ (setOrUpdate m k f init).map Prod.fst ↔ x ∈ m.map Prod.fst ∨ x = k := by
  induction m with
  | nil => simp [setOrUpdate]
  | cons kv rest ih =>
    obtain ⟨k', v⟩ := kv
    by_cases h : k' = k
    · subst h
      simp [setOrUpdate, or_assoc, or_comm, or_left_comm]
      try tauto
    · simp [setOrUpdate, h, ih, or_assoc]

/-- Insert-or-update preserves distinctness of keys. -/
theorem setOrUpdate_keys_nodup {α : Type} (m : List (String × α)) (k : String) (f : α → α)
    (init : α) (h : (m.map Prod.fst).Nodup) :
    ((setOrUpdate m k f init).map Prod.fst).Nodup := by
  induction m with
  | nil => simp [setOrUpdate]
  | cons kv rest ih =>
    obtain ⟨k', v⟩ := kv
    rw [List.map_cons, List.nodup_cons] at h
    by_cases hk : k' = k
    · subst hk
      simpa [setOrUpdate, List.nodup_cons] using h
    · rw [show setOrUpdate ((k', v) :: rest) k f init =
          (k', v) :: setOrUpdate rest k f init by simp [setOrUpdate, hk]]
      rw [List.map_cons, List.nodup_cons]
      refine ⟨?_, ih h.2⟩
      rw [mem_keys_setOrUpdate]
      push_neg
      exact ⟨h.1, hk⟩

/-- The aggregation map of the search engine has pairwise-distinct
command keys. -/
theorem aggregateCommands_keys_nodup (entries : List HistoryEntry) :
    ((aggregateCommands entries).map Prod.fst).Nodup := by
  suffices h : ∀ (es : List HistoryEntry) (m : List (String × CommandMeta)),
      (m.map Prod.fst).Nodup →
      ((es.foldl (fun m' e =>
        setOrUpdate m' e.command
          (fun meta =>
            { frequency := meta.frequency + 1
              lastUsed := laterTime meta.lastUsed e.timestamp
              lineNumber := max meta.lineNumber e.lineNumber })
          { frequency := 1, lastUsed := e.timestamp, lineNumber := e.lineNumber }) m).map
        Prod.fst).Nodup by
    exact h entries [] (by simp)
  intro es
  induction es with
  | nil => intro m hm; simpa using hm
  | cons e rest ih =>
    intro m hm
    exact ih _ (setOrUpdate_keys_nodup _ _ _ _ hm)

/-- The scored result list carries pairwise-distinct command strings. -/
theorem scoredResults_commands_pairwise (entries : List HistoryEntry) (query : String) :
    (scoredResults entries query).Pairwise (fun a b => a.command ≠ b.command) := by
  unfold scoredResults
  have hnd := aggregateCommands_keys_nodup entries
  have hpw : (aggregateCommands entries).Pairwise (fun kv kv' => kv.1 ≠ kv'.1) := by
    have := hnd
    rw [List.Nodup, List.pairwise_map] at this
    exact this
  rw [List.pairwise_filterMap]
  refine hpw.imp ?_
  intro kv kv' hne r hr r' hr'
  by_cases hc : MIN_SCORE ≤ combinedScore query (tokenize query) kv.1 kv.2
      (maxFreqOf (aggregateCommands entries)) (newestOf (aggregateCommands entries))
  · by_cases hc' : MIN_SCORE ≤ combinedScore query (tokenize query) kv'.1 kv'.2
        (maxFreqOf (aggregateCommands entries)) (newestOf (aggregateCommands entries))
    · simp only [if_pos hc] at hr
      simp only [if_pos hc'] at hr'
      rw [Option.mem_def, Option.some_inj] at hr hr'
      rw [← hr, ← hr']
      exact hne
    · simp [if_neg hc'] at hr'
  · simp [if_neg hc] at hr

/-- C8.  No two entries of a `searchHistory` result list share the same
command string: the search engine deduplicates by exact command string
before scoring. -/
theorem searchHistory_dedup (entries : List HistoryEntry) (query : String) (maxResults : Nat) :
    (searchHistory entries query maxResults).Pairwise (fun a b => a.command ≠ b.command) := by
  unfold searchHistory
  by_cases h1 : entries.length = 0 ∨ query.trim = ""
  · rw [if_pos h1]
    exact List.Pairwise.nil
  · rw [if_neg h1]
    by_cases h2 : (tokenize query).length = 0
    · rw [if_pos h2]
      exact List.Pairwise.nil
    · rw [if_neg h2]
      refine List.Pairwise.sublist (List.take_sublist _ _) ?_
      have hperm := List.mergeSort_perm (scoredResults entries query) resultLE
      exact (hperm.pairwise_iff (fun h e => h e.symm)).mpr
        (scoredResults_commands_pairwise entries query)

/-! ## C5: score bounds -/

/-- Rounding is monotone. -/
theorem round_mono_real {x y : ℝ} (h : x ≤ y) : round x ≤ round y := by
  rw [round_eq, round_eq]
  exact Int.floor_le_floor (by linarith)

/-- The exact-overlap sub-score lies in the unit interval. -/
theorem exactOverlap_bounds (q c : List String) :
    0 ≤ exactOverlap q c ∧ exactOverlap q c ≤ 1 := by
  unfold exactOverlap
  by_cases h : q.length = 0
  · simp [h]
  · rw [if_neg h]
    have hq : (0:ℝ) < q.length := by
      have := Nat.pos_of_ne_zero h
      exact_mod_cast this
    constructor
    · apply div_nonneg (by positivity) hq.le
    · rw [div_le_one hq]
      exact_mod_cast List.length_filter_le _ q

/-- The fuzzy-overlap sub-score lies in the unit interval. -/
theorem fuzzyOverlap_bounds (q c : List String) :
    0 ≤ fuzzyOverlap q c ∧ fuzzyOverlap q c ≤ 1 := by
  unfold fuzzyOverlap
  by_cases h : q.length = 0
  · simp [h]
  · rw [if_neg h]
    by_cases h2 : (q.filter (fun t => decide (¬ t ∈ c))).length = 0
    · rw [if_pos h2]; norm_num
    · rw [if_neg h2]
      have hq : (0:ℝ) < q.length := by
        have := Nat.pos_of_ne_zero h
        exact_mod_cast this
      constructor
      · apply div_nonneg (by positivity) hq.le
      · rw [div_le_one hq]
        have hle : ((q.filter (fun t => decide (¬ t ∈ c))).filter
            (fun qt => c.any (fun ct => fuzzyTokenMatch qt ct))).length ≤ q.length :=
          (List.length_filter_le _ _).trans (List.length_filter_le _ _)
        exact_mod_cast hle

/-- The substring sub-score lies in the unit interval. -/
theorem substringScore_bounds (query command : String) (q c : List String) :
    0 ≤ substringScore query command q c ∧ substringScore query command q c ≤ 1 := by
  unfold substringScore
  by_cases h : (query.toList.map Char.toLower) <:+: (command.toList.map Char.toLower)
  · rw [if_pos h]; norm_num
  · rw [if_neg h]
    by_cases h2 : 0 < q.length
    · rw [if_pos h2]
      have hq : (0:ℝ) < q.length := by exact_mod_cast h2
      constructor
      · apply div_nonneg (by positivity) hq.le
      · rw [div_le_one hq]
        exact_mod_cast List.length_filter_le _ q
    · rw [if_neg h2]; norm_num

/-- The frequency sub-score is non-negative. -/
theorem frequencyScore_nonneg (f maxF : ℕ) : 0 ≤ frequencyScore f maxF := by
  unfold frequencyScore
  by_cases h : maxF ≤ 1
  · simp [h]
  · rw [if_neg h]
    apply div_nonneg
    · apply Real.log_nonneg
      have : (0:ℝ) ≤ (f:ℝ) := by positivity
      linarith
    · apply Real.log_nonneg
      have : (1:ℝ) ≤ (maxF:ℝ) := by exact_mod_cast Nat.one_le_iff_ne_zero.mpr (by omega)
      linarith

/-- The frequency sub-score is at most 1 when the frequency does not
exceed the dataset maximum. -/
theorem frequencyScore_le_one (f maxF : ℕ) (h : f ≤ maxF) : frequencyScore f maxF ≤ 1 := by
  unfold frequencyScore
  by_cases hm : maxF ≤ 1
  · simp [hm]
  · rw [if_neg hm]
    have h2 : (2:ℝ) ≤ 1 + (maxF:ℝ) := by
      have : (1:ℝ) ≤ (maxF:ℝ) := by exact_mod_cast (by omega : 1 ≤ maxF)
      linarith
    have hpos : 0 < Real.log (1 + (maxF:ℝ)) := Real.log_pos (by linarith)
    rw [div_le_one hpos]
    apply Real.log_le_log (by positivity)
    have : (f:ℝ) ≤ (maxF:ℝ) := by exact_mod_cast h
    linarith

/-- The recency sub-score lies in the unit interval. -/
theorem recencyScore_bounds (ts : Option Nat) (newest : Nat) :
    0 ≤ recencyScore ts newest ∧ recencyScore ts newest ≤ 1 := by
  match ts with
  | none => simp [recencyScore]
  | some t =>
    simp only [recencyScore]
    by_cases h : newest ≤ t
    · rw [if_pos h]; norm_num
    · rw [if_neg h]
      constructor
      · exact le_max_left 0 _
      · apply max_le (by norm_num)
        have : 0 ≤ ((newest - t : ℕ) : ℝ) / (thirtyDaysMs : ℝ) := by
          apply div_nonneg (by positivity) (by norm_num [thirtyDaysMs])
        linarith

/-- Any element of an insert-or-update result is an old element, an
updated binding of the touched key, or the fresh binding. -/
theorem mem_setOrUpdate {α : Type} (m : List (String × α)) (k : String) (f : α → α) (init : α)
    (kv : String × α) (h : kv ∈ setOrUpdate m k f init) :
    kv ∈ m ∨ (∃ v, (k, v) ∈ m ∧ kv = (k, f v)) ∨ kv = (k, init) := by
  induction m with
  | nil => simpa [setOrUpdate] using h
  | cons hd rest ih =>
    obtain ⟨k', v⟩ := hd
    by_cases hk : k' = k
    · subst hk
      rw [show setOrUpdate ((k', v) :: rest) k' f init = (k', f v) :: rest by
        simp [setOrUpdate]] at h
      rcases List.mem_cons.mp h with h1 | h1
      · exact Or.inr (Or.inl ⟨v, List.mem_cons_self _ _, h1⟩)
      · exact Or.inl (List.mem_cons_of_mem _ h1)
    · rw [show setOrUpdate ((k', v) :: rest) k f init =
          (k', v) :: setOrUpdate rest k f init by simp [setOrUpdate, hk]] at h
      rcases List.mem_cons.mp h with h1 | h1
      · exact Or.inl (by simp [h1])
      · rcases ih h1 with h2 | h2 | h2
        · exact Or.inl (List.mem_cons_of_mem _ h2)
        · obtain ⟨w, hw1, hw2⟩ := h2
          exact Or.inr (Or.inl ⟨w, List.mem_cons_of_mem _ hw1, hw2⟩)
        · exact Or.inr (Or.inr h2)

/-- Folding the maximum-frequency step never decreases the accumulator. -/
theorem le_foldl_maxFreq (m : List (String × CommandMeta)) (acc : ℕ) :
    acc ≤ m.foldl (fun a kv => if a < kv.2.frequency then kv.2.frequency else a) acc := by
  induction m generalizing acc with
  | nil => exact le_rfl
  | cons kv rest ih =>
    refine le_trans ?_ (ih _)
    show acc ≤ if acc < kv.2.frequency then kv.2.frequency else acc
    split <;> omega

/-- Every aggregated frequency is bounded by the dataset maximum. -/
theorem mem_le_maxFreqOf (m : List (String × CommandMeta)) :
    ∀ kv ∈ m, kv.2.frequency ≤ maxFreqOf m := by
  suffices h : ∀ (l : List (String × CommandMeta)) (acc : ℕ), ∀ kv ∈ l,
      kv.2.frequency ≤
        l.foldl (fun a kv' => if a < kv'.2.frequency then kv'.2.frequency else a) acc by
    exact fun kv hkv => h m 1 kv hkv
  intro l
  induction l with
  | nil => intro acc kv hkv; simp at hkv
  | cons hd rest ih =>
    intro acc kv hkv
    rcases List.mem_cons.mp hkv with rfl | h1
    · refine le_trans ?_ (le_foldl_maxFreq rest _)
      show kv.2.frequency ≤ if acc < kv.2.frequency then kv.2.frequency else acc
      split <;> omega
    · exact ih _ kv h1

/-- The raw combined score lies in the unit interval. -/
theorem combinedScore_bounds (query : String) (qts : List String) (cmd : String)
    (meta : CommandMeta) (maxF newest : ℕ) (hf : meta.frequency ≤ maxF) :
    0 ≤ combinedScore query qts cmd meta maxF newest ∧
      combinedScore query qts cmd meta maxF newest ≤ 1 := by
  unfold combinedScore
  obtain ⟨e0, e1⟩ := exactOverlap_bounds qts (tokenize cmd)
  obtain ⟨f0, f1⟩ := fuzzyOverlap_bounds qts (tokenize cmd)
  obtain ⟨s0, s1⟩ := substringScore_bounds query cmd qts (tokenize cmd)
  have q0 := frequencyScore_nonneg meta.frequency maxF
  have q1 := frequencyScore_le_one meta.frequency maxF hf
  obtain ⟨r0, r1⟩ := recencyScore_bounds meta.lastUsed newest
  unfold WEIGHT_EXACT WEIGHT_FUZZY WEIGHT_SUBSTRING WEIGHT_FREQUENCY WEIGHT_RECENCY
  norm_num
  constructor <;> nlinarith

/-- Rounding a kept score to three decimals keeps it in
`[MIN_SCORE, 1]`. -/
theorem roundTo3_bounds (s : ℝ) (h1 : MIN_SCORE ≤ s) (h2 : s ≤ 1) :
    MIN_SCORE ≤ roundTo3 s ∧ roundTo3 s ≤ 1 := by
  unfold roundTo3
  unfold MIN_SCORE at h1 ⊢
  have hlo : (50 : ℤ) ≤ round (s * 1000) := by
    have : round ((50:ℝ)) ≤ round (s * 1000) := round_mono_real (by nlinarith)
    simpa using this
  have hhi : round (s * 1000) ≤ (1000 : ℤ) := by
    have : round (s * 1000) ≤ round ((1000:ℝ)) := round_mono_real (by nlinarith)
    simpa using this
  constructor
  · rw [show (0.05 : ℝ) = 50 / 1000 by norm_num]
    apply div_le_div_of_nonneg_right ?_ (by norm_num)
    exact_mod_cast hlo
  · rw [show (1 : ℝ) = 1000 / 1000 by norm_num]
    apply div_le_div_of_nonneg_right ?_ (by norm_num)
    exact_mod_cast hhi

/-- C5.  Every result returned by `searchHistory` has a score in the
closed interval `[0.05, 1]` with at most three decimal digits: the score
times 1000 is the integer produced by the rounding step. -/
theorem searchHistory_score_bounds (entries : List HistoryEntry) (query : String)
    (maxResults : Nat) :
    (searchHistory entries query maxResults).Forall
      (fun r => (0.05 : ℝ) ≤ r.score ∧ r.score ≤ 1 ∧ ∃ n : ℤ, r.score = (n : ℝ) / 1000) := by
  rw [List.forall_iff_forall_mem]
  intro r hr
  unfold searchHistory at hr
  by_cases h1 : entries.length = 0 ∨ query.trim = ""
  · rw [if_pos h1] at hr
    exact absurd hr (List.not_mem_nil r)
  · rw [if_neg h1] at hr
    by_cases h2 : (tokenize query).length = 0
    · rw [if_pos h2] at hr
      exact absurd hr (List.not_mem_nil r)
    · rw [if_neg h2] at hr
      have hr2 := List.mem_of_mem_take hr
      have hr3 := (List.mergeSort_perm (scoredResults entries query) resultLE).mem_iff.mp hr2
      simp only [scoredResults] at hr3
      obtain ⟨kv, hkv, heq⟩ := List.mem_filterMap.mp hr3
      by_cases hc : MIN_SCORE ≤ combinedScore query (tokenize query) kv.1 kv.2
          (maxFreqOf (aggregateCommands entries)) (newestOf (aggregateCommands entries))
      · rw [if_pos hc] at heq
        rw [Option.some_inj] at heq
        obtain ⟨-, hc1⟩ := combinedScore_bounds query (tokenize query) kv.1 kv.2
          (maxFreqOf (aggregateCommands entries)) (newestOf (aggregateCommands entries))
          (mem_le_maxFreqOf _ kv hkv)
        obtain ⟨hb1, hb2⟩ := roundTo3_bounds _ hc hc1
        rw [← heq]
        refine ⟨?_, hb2, round (combinedScore query (tokenize query) kv.1 kv.2
          (maxFreqOf (aggregateCommands entries)) (newestOf (aggregateCommands entries)) * 1000),
          rfl⟩
        simpa [MIN_SCORE] using hb1
      · rw [if_neg hc] at heq
        exact absurd heq (by simp)

/-! ## C2: threshold versus rounding -/

/-- C2 amended.  Before sorting and truncation, a command is kept in the
scored result set exactly when its raw (un-rounded) combined score
reaches `MIN_SCORE`; the rounding to three decimals is applied only to
the stored score of a kept result. -/
theorem scoredResults_mem_iff (entries : List HistoryEntry) (query : String) (c : String) :
    (∃ r ∈ scoredResults entries query, r.command = c) ↔
      (∃ meta, (c, meta) ∈ aggregateCommands entries ∧
        MIN_SCORE ≤ combinedScore query (tokenize query) c meta
          (maxFreqOf (aggregateCommands entries)) (newestOf (aggregateCommands entries))) := by
  simp only [scoredResults]
  constructor
  · rintro ⟨r, hr, rfl⟩
    obtain ⟨kv, hkv, heq⟩ := List.mem_filterMap.mp hr
    by_cases hc : MIN_SCORE ≤ combinedScore query (tokenize query) kv.1 kv.2
        (maxFreqOf (aggregateCommands entries)) (newestOf (aggregateCommands entries))
    · rw [if_pos hc, Option.some_inj] at heq
      refine ⟨kv.2, ?_, ?_⟩
      · rw [← heq]
        simpa using hkv
      · rw [← heq]
        exact hc
    · rw [if_neg hc] at heq
      exact absurd heq (by simp)
  · rintro ⟨meta, hmem, hcond⟩
    refine ⟨{ command := c
              score := roundTo3 (combinedScore query (tokenize query) c meta
                (maxFreqOf (aggregateCommands entries)) (newestOf (aggregateCommands entries)))
              lastUsed := meta.lastUsed
              frequency := meta.frequency
              lineNumber := meta.lineNumber },
            List.mem_filterMap.mpr ⟨(c, meta), hmem, by rw [if_pos hcond]⟩, rfl⟩

/-- The exact-overlap sub-score of the query token against the dropped
command of `thresholdEntries` is 0. -/
theorem exactOverlap_qqq_oooo : exactOverlap ["qqq"] ["oooo"] = 0 := by
  simp only [exactOverlap]
  simp +decide [List.filter_cons]

/-- The fuzzy-overlap sub-score against the dropped command is 0. -/
theorem fuzzyOverlap_qqq_oooo : fuzzyOverlap ["qqq"] ["oooo"] = 0 := by
  simp only [fuzzyOverlap]
  simp +decide [List.filter_cons]

/-- The substring sub-score against the dropped command is 0. -/
theorem substringScore_qqq_oooo : substringScore "qqq" "oooo" ["qqq"] ["oooo"] = 0 := by
  simp only [substringScore]
  simp +decide [List.filter_cons]

/-- The frequency sub-score is 0 when the maximum frequency is 1. -/
theorem frequencyScore_one_one : frequencyScore 1 1 = 0 := by
  simp [frequencyScore]

/-- The recency sub-score of the dropped command: 0.2 percent into the
thirty-day decay window. -/
theorem recencyScore_oooo : recencyScore (some 2586816000) 2592000000 = 499/500 := by
  simp only [recencyScore]
  rw [if_neg (by norm_num)]
  rw [show ((2592000000 - 2586816000 : ℕ) : ℝ) = 5184000 by norm_num]
  rw [max_eq_right (by norm_num [thirtyDaysMs])]
  norm_num [thirtyDaysMs]

/-- Raw combined score of the dropped command: 0.0499. -/
theorem combinedScore_oooo : combinedScore "qqq" (tokenize "qqq") "oooo"
    ⟨1, some 2586816000, 2⟩ 1 2592000000 = 499/10000 := by
  simp only [combinedScore]
  rw [show tokenize "qqq" = ["qqq"] from by decide,
    show tokenize "oooo" = ["oooo"] from by decide]
  rw [exactOverlap_qqq_oooo, fuzzyOverlap_qqq_oooo, substringScore_qqq_oooo,
    frequencyScore_one_one, recencyScore_oooo]
  norm_num [WEIGHT_EXACT, WEIGHT_FUZZY, WEIGHT_SUBSTRING, WEIGHT_FREQUENCY, WEIGHT_RECENCY]

/-- Rounding 0.0499 to three decimals gives 0.05. -/
theorem roundTo3_0499 : roundTo3 (499/10000) = 0.05 := by
  unfold roundTo3
  rw [show (499/10000 : ℝ) * 1000 = 49.9 by norm_num]
  rw [round_eq]
  rw [show (49.9 : ℝ) + 1/2 = 50.4 by norm_num]
  rw [show ⌊(50.4 : ℝ)⌋ = 50 from by
    rw [Int.floor_eq_iff]
    norm_num]
  norm_num

/-- The exact-overlap sub-score against the kept command is 0. -/
theorem exactOverlap_qqq_nnnn : exactOverlap ["qqq"] ["nnnn"] = 0 := by
  simp only [exactOverlap]
  simp +decide [List.filter_cons]

/-- The fuzzy-overlap sub-score against the kept command is 0. -/
theorem fuzzyOverlap_qqq_nnnn : fuzzyOverlap ["qqq"] ["nnnn"] = 0 := by
  simp only [fuzzyOverlap]
  simp +decide [List.filter_cons]

/-- The substring sub-score against the kept command is 0. -/
theorem substringScore_qqq_nnnn : substringScore "qqq" "nnnn" ["qqq"] ["nnnn"] = 0 := by
  simp only [substringScore]
  simp +decide [List.filter_cons]

/-- The newest command has recency sub-score 1. -/
theorem recencyScore_nnnn : recencyScore (some 2592000000) 2592000000 = 1 := by
  simp [recencyScore]

/-- Raw combined score of the kept command: exactly 0.05. -/
theorem combinedScore_nnnn : combinedScore "qqq" (tokenize "qqq") "nnnn"
    ⟨1, some 2592000000, 1⟩ 1 2592000000 = 1/20 := by
  simp only [combinedScore]
  rw [show tokenize "qqq" = ["qqq"] from by decide,
    show tokenize "nnnn" = ["nnnn"] from by decide]
  rw [exactOverlap_qqq_nnnn, fuzzyOverlap_qqq_nnnn, substringScore_qqq_nnnn,
    frequencyScore_one_one, recencyScore_nnnn]
  norm_num [WEIGHT_EXACT, WEIGHT_FUZZY, WEIGHT_SUBSTRING, WEIGHT_FREQUENCY, WEIGHT_RECENCY]

/-- C2 counterexample.  In `thresholdEntries` with query `"qqq"`, the
command `"oooo"` has raw combined score 0.0499, whose 3-decimal rounding
is 0.05 and thus reaches the threshold; yet the code drops it, because
the threshold is compared against the raw score before rounding.  So a
command whose rounded score is at least 0.05 is missing from the result
set built before truncation. -/
theorem searchHistory_threshold_counterexample :
    ("oooo", (⟨1, some 2586816000, 2⟩ : CommandMeta)) ∈ aggregateCommands thresholdEntries ∧
    (0.05 : ℝ) ≤ roundTo3 (combinedScore "qqq" (tokenize "qqq") "oooo"
      ⟨1, some 2586816000, 2⟩ (maxFreqOf (aggregateCommands thresholdEntries))
      (newestOf (aggregateCommands thresholdEntries))) ∧
    ∀ r ∈ scoredResults thresholdEntries "qqq", r.command ≠ "oooo" := by
  have hagg : aggregateCommands thresholdEntries =
      [("nnnn", ⟨1, some 2592000000, 1⟩), ("oooo", ⟨1, some 2586816000, 2⟩)] := by decide
  have hmax : maxFreqOf (aggregateCommands thresholdEntries) = 1 := by decide
  have hnew : newestOf (aggregateCommands thresholdEntries) = 2592000000 := by decide
  refine ⟨by rw [hagg]; simp, ?_, ?_⟩
  · rw [hmax, hnew, combinedScore_oooo, roundTo3_0499]
  · intro r hr
    simp only [scoredResults] at hr
    rw [hmax, hnew, hagg] at hr
    simp only [List.filterMap_cons, List.filterMap_nil] at hr
    rw [combinedScore_nnnn, combinedScore_oooo] at hr
    rw [if_pos (by norm_num [MIN_SCORE] : MIN_SCORE ≤ (1/20 : ℝ))] at hr
    rw [if_neg (by norm_num [MIN_SCORE] : ¬ MIN_SCORE ≤ (499/10000 : ℝ))] at hr
    simp at hr
    rw [hr]
    decide

/-! ## C4: clustering of a similar pair -/

/-- Sorting a two-element list is a single comparison. -/
theorem mergeSort_pair {α : Type} (a b : α) (le : α → α → Bool) :
    List.mergeSort [a, b] le = if le a b then [a, b] else [b, a] := by
  simp [List.mergeSort, List.merge]

/-- Distance from the empty character list. -/
theorem levFuel_nil_left (f : ℕ) (ys : List Char) : levFuel f [] ys = ys.length := by
  cases f <;> cases ys <;> rfl

/-- Distance to the empty character list. -/
theorem levFuel_nil_right (f : ℕ) (xs : List Char) : levFuel f xs [] = xs.length := by
  cases f <;> cases xs <;> rfl

/-- The fuelled edit distance is symmetric whenever the fuel suffices. -/
theorem levFuel_symm (f : ℕ) (xs ys : List Char) (h : xs.length + ys.length ≤ f) :
    levFuel f xs ys = levFuel f ys xs := by
  induction f generalizing xs ys with
  | zero =>
    match xs, ys with
    | [], ys => rw [levFuel_nil_left, levFuel_nil_right]
    | x :: xs, [] => rw [levFuel_nil_left, levFuel_nil_right]
    | x :: xs, y :: ys => simp at h
  | succ g ih =>
    match xs, ys with
    | [], ys => rw [levFuel_nil_left, levFuel_nil_right]
    | x :: xs, [] => rw [levFuel_nil_left, levFuel_nil_right]
    | x :: xs, y :: ys =>
      simp only [levFuel]
      simp only [List.length_cons] at h
      by_cases hxy : x = y
      · rw [if_pos hxy, if_pos hxy.symm]
        exact ih xs ys (by omega)
      · rw [if_neg hxy, if_neg (fun hyx => hxy hyx.symm)]
        rw [ih xs ys (by omega), ih (x :: xs) ys (by simp; omega),
          ih xs (y :: ys) (by simp; omega)]
        omega

/-- String edit distance is symmetric. -/
theorem levenshteinGet_symm (a b : String) : levenshteinGet a b = levenshteinGet b a := by
  unfold levenshteinGet levenshtein
  rw [Nat.add_comm b.toList.length a.toList.length]
  exact levFuel_symm _ _ _ le_rfl

/-- Walking the clustering loop over exactly two distinct similar keys
merges the second into the first: one pattern, combined count, the other
key as the single variation. -/
theorem groupSimilar_pair_foldl (p q : String) (ip iq : CountInfo) (t : ℕ)
    (hne : p ≠ q) (hd : Nat.dist p.length q.length ≤ t) (hl : levenshteinGet p q ≤ t) :
    (List.foldl (outerStep t [(p, ip), (q, iq)]) { used := [], patterns := [] }
        [(p, ip), (q, iq)]).patterns =
      [{ pattern := p, frequency := ip.count + iq.count,
         lastUsed := laterTime ip.lastUsed iq.lastUsed, variations := [q] }] := by
  have hne1 : (q = p) = False := eq_false (fun h => hne h.symm)
  have hd1 : (Nat.dist p.length q.length > t) = False := eq_false (by omega)
  have hl1 : (levenshteinGet p q ≤ t) = True := eq_true hl
  simp [outerStep, innerStep, List.foldl, hne1, hd1, hl1]

/-- C4.  For two distinct command strings whose edit distance and length
difference are both within the similarity threshold, clustering their
two-entry count map yields exactly one pattern: one of the strings is
the representative, the other is its only variation, and the frequency
is the sum of the two counts. -/
theorem groupSimilarCommands_pair (a b : String) (ia ib : CountInfo) (t : ℕ)
    (hne : a ≠ b) (hd : Nat.dist a.length b.length ≤ t) (hl : levenshteinGet a b ≤ t) :
    ∃ pat, groupSimilarCommands [(a, ia), (b, ib)] t = [pat] ∧
      ((pat.pattern = a ∧ pat.variations = [b]) ∨ (pat.pattern = b ∧ pat.variations = [a])) ∧
      pat.frequency = ia.count + ib.count := by
  simp only [groupSimilarCommands]
  rw [mergeSort_pair]
  by_cases h : countDescLE (a, ia) (b, ib)
  · rw [if_pos h]
    exact ⟨_, groupSimilar_pair_foldl a b ia ib t hne hd hl, Or.inl ⟨rfl, rfl⟩, rfl⟩
  · rw [if_neg h]
    exact ⟨_, groupSimilar_pair_foldl b a ib ia t hne.symm (by rwa [Nat.dist_comm])
      (by rwa [levenshteinGet_symm]), Or.inr ⟨rfl, rfl⟩, Nat.add_comm _ _⟩

/-- Witness for C4 at the concrete similar pair `"aa"`, `"ab"`. -/
theorem groupSimilarCommands_pair_witness :
    ("aa" : String) ≠ "ab" ∧
    Nat.dist ("aa" : String).length ("ab" : String).length ≤ 3 ∧
    levenshteinGet "aa" "ab" ≤ 3 ∧
    ∃ pat, groupSimilarCommands [("aa", ⟨3, none⟩), ("ab", ⟨2, some 7⟩)] 3 = [pat] ∧
      ((pat.pattern = "aa" ∧ pat.variations = ["ab"]) ∨
        (pat.pattern = "ab" ∧ pat.variations = ["aa"])) ∧
      pat.frequency = (⟨3, none⟩ : CountInfo).count + (⟨2, some 7⟩ : CountInfo).count :=
  ⟨by decide, by decide, by decide,
   groupSimilarCommands_pair "aa" "ab" ⟨3, none⟩ ⟨2, some 7⟩ 3 (by decide) (by decide)
     (by decide)⟩

/-! ## C10: clusters partition the counted keys -/

/-- The nested conditionals of one inner-scan step collapse to a single
merge condition. -/
theorem innerStep_eq (t : ℕ) (cmd : String) (st : InnerState) (kv : String × CountInfo) :
    innerStep t cmd st kv =
      if mergeCond t cmd st.used kv then
        { used := kv.1 :: st.used
          variations := st.variations ++ [kv.1]
          totalCount := st.totalCount + kv.2.count
          latestUsed := laterTime st.latestUsed kv.2.lastUsed }
      else st := by
  unfold innerStep mergeCond
  by_cases h1 : kv.1 = cmd ∨ kv.1 ∈ st.used
  · simp [h1]
  · by_cases h2 : Nat.dist cmd.length kv.1.length > t
    · simp [h1, h2]
    · by_cases h3 : levenshteinGet cmd kv.1 ≤ t
      · simp [h1, h2, h3]
      · simp [h1, h2, h3]

/-- The merge condition ignores a consumed key different from the
candidate. -/
theorem mergeCond_cons_of_ne (t : ℕ) (cmd x : String) (u : List String)
    (kv : String × CountInfo) (hx : kv.1 ≠ x) :
    mergeCond t cmd (x :: u) kv = mergeCond t cmd u kv := by
  simp [mergeCond, hx]

/-- Over a duplicate-free scan list, the inner scan appends exactly the
keys satisfying the merge condition for the initial consumed set. -/
theorem innerFold_variations (t : ℕ) (cmd : String) (rest : List (String × CountInfo)) :
    ∀ (st : InnerState), (rest.map Prod.fst).Nodup →
    (rest.foldl (innerStep t cmd) st).variations =
      st.variations ++ (rest.filter (mergeCond t cmd st.used)).map Prod.fst := by
  induction rest with
  | nil => intro st _; simp
  | cons kv rest' ih =>
    intro st hnd
    rw [List.map_cons, List.nodup_cons] at hnd
    rw [List.foldl_cons, innerStep_eq]
    by_cases hm : mergeCond t cmd st.used kv
    · rw [if_pos hm, ih _ hnd.2]
      have hcongr : rest'.filter (mergeCond t cmd (kv.1 :: st.used)) =
          rest'.filter (mergeCond t cmd st.used) := by
        refine List.filter_congr ?_
        intro o ho
        exact mergeCond_cons_of_ne t cmd kv.1 st.used o
          (fun he => hnd.1 (he ▸ List.mem_map_of_mem Prod.fst ho))
      simp only [hcongr, List.filter_cons_of_pos hm, List.map_cons, List.append_assoc,
        List.singleton_append]
    · rw [if_neg hm, ih _ hnd.2, List.filter_cons_of_neg hm]

/-- Over a duplicate-free scan list, the consumed set after the inner
scan is the initial one plus the merged keys. -/
theorem innerFold_used (t : ℕ) (cmd : String) (rest : List (String × CountInfo)) :
    ∀ (st : InnerState), (rest.map Prod.fst).Nodup → ∀ x,
    (x ∈ (rest.foldl (innerStep t cmd) st).used ↔
      x ∈ st.used ∨ x ∈ (rest.filter (mergeCond t cmd st.used)).map Prod.fst) := by
  induction rest with
  | nil => intro st _ x; simp
  | cons kv rest' ih =>
    intro st hnd x
    rw [List.map_cons, List.nodup_cons] at hnd
    rw [List.foldl_cons, innerStep_eq]
    by_cases hm : mergeCond t cmd st.used kv
    · rw [if_pos hm]
      have hcongr : rest'.filter (mergeCond t cmd (kv.1 :: st.used)) =
          rest'.filter (mergeCond t cmd st.used) := by
        refine List.filter_congr ?_
        intro o ho
        exact mergeCond_cons_of_ne t cmd kv.1 st.used o
          (fun he => hnd.1 (he ▸ List.mem_map_of_mem Prod.fst ho))
      rw [ih _ hnd.2 x]
      simp only [hcongr, List.filter_cons_of_pos hm, List.map_cons, List.mem_cons]
      tauto
    · rw [if_neg hm, ih _ hnd.2 x, List.filter_cons_of_neg hm]
/-- Claimed keys of a concatenation. -/
theorem collectKeys_append (ps qs : List CommandPattern) :
    collectKeys (ps ++ qs) = collectKeys ps ++ collectKeys qs := by
  simp [collectKeys]

/-- Invariant of the outer clustering walk: starting from a suffix `L`
of the sorted list with every already-passed key consumed, the keys
claimed by the produced patterns are, up to permutation, the keys
already claimed plus every not-yet-consumed key of `L`. -/
theorem outerFold_collect (t : ℕ) (S : List (String × CountInfo))
    (hndS : (S.map Prod.fst).Nodup) :
    ∀ (L P : List (String × CountInfo)) (used : List String) (ps : List CommandPattern),
      S = P ++ L →
      (∀ k ∈ P.map Prod.fst, k ∈ used) →
      (collectKeys ((L.foldl (outerStep t S) { used := used, patterns := ps }).patterns)).Perm
        (collectKeys ps ++ (L.map Prod.fst).filter (fun k => decide (¬ k ∈ used))) := by
  intro L
  induction L with
  | nil =>
    intro P used ps hS hP
    simp
  | cons kv L' ih =>
    intro P used ps hS hP
    rw [List.foldl_cons]
    by_cases hk : kv.1 ∈ used
    · rw [show outerStep t S { used := used, patterns := ps } kv =
          { used := used, patterns := ps } from by simp [outerStep, hk]]
      have hstep := ih (P ++ [kv]) used ps (by rw [hS, List.append_assoc]; rfl)
        (by intro k hkmem
            rw [List.map_append, List.mem_append] at hkmem
            rcases hkmem with h | h
            · exact hP k h
            · simp at h
              rw [h]
              exact hk)
      refine hstep.trans ?_
      rw [List.map_cons, List.filter_cons_of_neg (by simpa using hk)]
    · -- the representative case
      rw [show outerStep t S { used := used, patterns := ps } kv =
          { used := (S.foldl (innerStep t kv.1)
              { used := kv.1 :: used, variations := [], totalCount := kv.2.count,
                latestUsed := kv.2.lastUsed }).used,
            patterns := ps ++
              [{ pattern := kv.1,
                 frequency := (S.foldl (innerStep t kv.1)
                   { used := kv.1 :: used, variations := [], totalCount := kv.2.count,
                     latestUsed := kv.2.lastUsed }).totalCount,
                 lastUsed := (S.foldl (innerStep t kv.1)
                   { used := kv.1 :: used, variations := [], totalCount := kv.2.count,
                     latestUsed := kv.2.lastUsed }).latestUsed,
                 variations := (S.foldl (innerStep t kv.1)
                   { used := kv.1 :: used, variations := [], totalCount := kv.2.count,
                     latestUsed := kv.2.lastUsed }).variations }] } from by
        simp [outerStep, hk]]
      set inner := S.foldl (innerStep t kv.1)
        { used := kv.1 :: used, variations := [], totalCount := kv.2.count,
          latestUsed := kv.2.lastUsed } with hinner
      set newly := (S.filter (mergeCond t kv.1 (kv.1 :: used))).map Prod.fst with hnewly
      have hvar : inner.variations = newly := by
        rw [hinner, innerFold_variations t kv.1 S _ hndS]
        rfl
      have huse : ∀ x, x ∈ inner.used ↔ x ∈ kv.1 :: used ∨ x ∈ newly := by
        intro x
        rw [hinner, innerFold_used t kv.1 S _ hndS x]
      have hkeysS : S.map Prod.fst = P.map Prod.fst ++ kv.1 :: L'.map Prod.fst := by
        rw [hS]
        simp
      have hndtail : (kv.1 :: L'.map Prod.fst).Nodup := by
        have := hndS
        rw [hkeysS] at this
        exact this.of_append_right
      have hkv1L : kv.1 ∉ L'.map Prod.fst := (List.nodup_cons.mp hndtail).1
      have hndL : (L'.map Prod.fst).Nodup := (List.nodup_cons.mp hndtail).2
      have hnewsub : ∀ x ∈ newly, x ∈ L'.map Prod.fst ∧ ¬ x ∈ used ∧ x ≠ kv.1 := by
        intro x hx
        rw [hnewly] at hx
        obtain ⟨o, ho, rfl⟩ := List.mem_map.mp hx
        obtain ⟨hoS, hoc⟩ := List.mem_filter.mp ho
        rw [mergeCond, Bool.and_eq_true, Bool.and_eq_true, Bool.not_eq_true',
          decide_eq_false_iff_not] at hoc
        push_neg at hoc
        obtain ⟨⟨hne1, hne2⟩, -⟩ := hoc
        have hnu : ¬ o.1 ∈ used := fun hu => hne2 (List.mem_cons_of_mem _ hu)
        have hxS : o.1 ∈ S.map Prod.fst := List.mem_map_of_mem Prod.fst hoS
        rw [hkeysS, List.mem_append, List.mem_cons] at hxS
        rcases hxS with h | h | h
        · exact absurd (hP _ h) hnu
        · exact absurd h hne1
        · exact ⟨h, hnu, hne1⟩
      have hnewnd : newly.Nodup := by
        rw [hnewly]
        exact hndS.sublist ((List.filter_sublist S).map Prod.fst)
      have hstep := ih (P ++ [kv]) inner.used
        (ps ++ [CommandPattern.mk kv.1 inner.totalCount inner.latestUsed inner.variations])
        (by rw [hS, List.append_assoc]; rfl)
        (by intro k hkmem
            rw [List.map_append, List.mem_append] at hkmem
            rcases hkmem with h | h
            · exact (huse k).mpr (Or.inl (List.mem_cons_of_mem _ (hP k h)))
            · simp at h
              rw [h]
              exact (huse kv.1).mpr (Or.inl (List.mem_cons_self _ _)))
      refine hstep.trans ?_
      rw [collectKeys_append]
      rw [show collectKeys [CommandPattern.mk kv.1 inner.totalCount inner.latestUsed
          inner.variations] = kv.1 :: inner.variations from by simp [collectKeys]]
      rw [hvar]
      -- step A: rewrite the filter over the new used set
      have hfA : (L'.map Prod.fst).filter (fun k => decide (¬ k ∈ inner.used)) =
          ((L'.map Prod.fst).filter (fun k => decide (¬ k ∈ used))).filter
            (fun k => decide (¬ k ∈ newly)) := by
        rw [List.filter_filter]
        refine List.filter_congr ?_
        intro x hx
        have hxk : x ≠ kv.1 := fun he => hkv1L (he ▸ hx)
        rw [Bool.eq_iff_iff]
        simp only [decide_eq_true_eq, Bool.and_eq_true, huse x, List.mem_cons]
        constructor
        · intro h
          exact ⟨fun hn => h (Or.inr hn), fun hu => h (Or.inl (Or.inr hu))⟩
        · rintro ⟨hn, hu⟩ (h | h)
          · rcases h with h | h
            · exact hxk h
            · exact hu h
          · exact hn h
      -- step B: newly is a permutation of the kept block
      have hfB : newly.Perm (((L'.map Prod.fst).filter (fun k => decide (¬ k ∈ used))).filter
          (fun k => decide (k ∈ newly))) := by
        apply List.perm_of_nodup_nodup_toFinset_eq hnewnd
          (((hndL.filter _).filter _))
        ext x
        simp only [List.mem_toFinset, List.mem_filter, decide_eq_true_eq]
        constructor
        · intro hx
          obtain ⟨h1, h2, h3⟩ := hnewsub x hx
          exact ⟨⟨h1, h2⟩, hx⟩
        · rintro ⟨-, hx⟩
          exact hx
      -- step C: assemble
      rw [List.map_cons, List.filter_cons_of_pos (by simpa using hk)]
      rw [hfA, List.append_assoc, List.cons_append]
      refine (List.Perm.append_left (collectKeys ps) ?_)
      refine List.Perm.cons kv.1 ?_
      set M := (L'.map Prod.fst).filter (fun k => decide (¬ k ∈ used)) with hM
      refine List.Perm.trans
        (hfB.append_right (M.filter (fun k => decide (¬ k ∈ newly)))) ?_
      refine List.Perm.trans ?_ (List.filter_append_perm (fun k => decide (k ∈ newly)) M)
      refine List.Perm.append_left _ ?_
      simp only [decide_not]
      rfl
/-- C10.  For a count map with pairwise-distinct keys, the clusters
produced by `groupSimilarCommands` partition the keys: the
concatenation of every pattern with its variations is a permutation of
the key list, so each key appears exactly once across all clusters,
either as a representative or as a variation. -/
theorem groupSimilarCommands_partition (counts : List (String × CountInfo)) (t : ℕ)
    (hnd : (counts.map Prod.fst).Nodup) :
    (collectKeys (groupSimilarCommands counts t)).Perm (counts.map Prod.fst) := by
  simp only [groupSimilarCommands]
  have hperm := List.mergeSort_perm counts countDescLE
  have hndS : ((counts.mergeSort countDescLE).map Prod.fst).Nodup :=
    ((hperm.map Prod.fst).nodup_iff).mpr hnd
  have h := outerFold_collect t (counts.mergeSort countDescLE) hndS
    (counts.mergeSort countDescLE) [] [] [] rfl (by simp)
  refine h.trans ?_
  simpa [collectKeys] using hperm.map Prod.fst

/-- Witness for C10 on a three-key count map in which two keys merge
and one stays alone. -/
theorem groupSimilarCommands_partition_witness :
    ((([("aa", ⟨3, none⟩), ("ab", ⟨2, some 7⟩), ("zzzz", ⟨1, none⟩)] :
        List (String × CountInfo)).map Prod.fst).Nodup) ∧
    (collectKeys (groupSimilarCommands
        [("aa", ⟨3, none⟩), ("ab", ⟨2, some 7⟩), ("zzzz", ⟨1, none⟩)] 3)).Perm
      (([("aa", ⟨3, none⟩), ("ab", ⟨2, some 7⟩), ("zzzz", ⟨1, none⟩)] :
        List (String × CountInfo)).map Prod.fst) :=
  ⟨by decide, groupSimilarCommands_partition
    [("aa", ⟨3, none⟩), ("ab", ⟨2, some 7⟩), ("zzzz", ⟨1, none⟩)] 3 (by decide)⟩
end DotfilesCoach
